import Mathlib

/- A shallow embedding of the graph_rag knowledge-graph pipeline
   (src/graph_rag/src): the text cleaning of text_processor.py, the data
   types of entity_extractor.py, the store operations of neo4j_store.py
   and the orchestration of graph_rag_pipeline.py.  Strings are modelled
   through their character lists; Python regular-expression passes and
   Cypher statements are modelled operationally, on the ASCII fragment. -/

namespace GraphRag

/-! ## text_processor.py, `clean_text` (lines 28-50) -/

/-- Python `\s` on the ASCII fragment: space, tab, newline, carriage
return, vertical tab, form feed. -/
def isPyWhitespace (c : Char) : Bool :=
  c == ' ' || c == '\t' || c == '\n' || c == '\r' ||
    c == Char.ofNat 11 || c == Char.ofNat 12

/-- Python `\w` on the ASCII fragment: letters, digits, underscore. -/
def isPyWordChar (c : Char) : Bool :=
  c.isAlphanum || c == '_'

/-- The character class `[.,!?;:]` of the run-collapsing regex in
`clean_text`. -/
def isPunctCls (c : Char) : Bool :=
  c == '.' || c == ',' || c == '!' || c == '?' || c == ';' || c == ':'

/-- The allow-list `[\w\s.,!?;:()\-']` of `clean_text`; every character
outside it is removed (`Char.ofNat 39` is the apostrophe). -/
def isAllowedChar (c : Char) : Bool :=
  isPyWordChar c || isPyWhitespace c || isPunctCls c ||
    c == '(' || c == ')' || c == '-' || c == Char.ofNat 39

/-- Operational model of `re.sub(r'\s+', ' ', text)`: inside a maximal
whitespace run every character except the last is dropped and the
survivor is rewritten to `' '`, so each maximal run of whitespace
becomes a single space. -/
def collapseWhitespace : List Char → List Char
  | [] => []
  | [c] => [if isPyWhitespace c then ' ' else c]
  | c :: d :: rest =>
    if isPyWhitespace c && isPyWhitespace d then
      collapseWhitespace (d :: rest)
    else
      (if isPyWhitespace c then ' ' else c) :: collapseWhitespace (d :: rest)

/-- Operational model of `re.sub(r'([.,!?;:]){2,}', r'\1', text)`: the
regex matches each maximal run of two or more characters of the class
`[.,!?;:]` (the characters of one run need not be equal) and replaces it
by the last captured character, so inside a run every class character
that is followed by another class character is dropped. -/
def collapsePunctRuns : List Char → List Char
  | [] => []
  | [c] => [c]
  | c :: d :: rest =>
    if isPunctCls c && isPunctCls d then
      collapsePunctRuns (d :: rest)
    else
      c :: collapsePunctRuns (d :: rest)

/-- Python `str.strip()`: drop whitespace from both ends. -/
def pyStrip (l : List Char) : List Char :=
  ((l.dropWhile isPyWhitespace).reverse.dropWhile isPyWhitespace).reverse

/-- `TextProcessor.clean_text`: collapse whitespace runs to one space,
remove the characters outside the allow-list, collapse punctuation runs,
and strip the ends. -/
def clean_text (s : String) : String :=
  ⟨pyStrip (collapsePunctRuns ((collapseWhitespace s.data).filter isAllowedChar))⟩

/-- Does the list start with a space?  Used by the specification-style
right folds below. -/
def headIsSpace : List Char → Bool
  | [] => false
  | c :: _ => c == ' '

/-- Does the list start with a `[.,!?;:]` character? -/
def headIsPunct : List Char → Bool
  | [] => false
  | c :: _ => isPunctCls c

/-- Whitespace collapsing stated as in the amended specification, as a
right fold: a whitespace character standing before an already collapsed
run (which starts with the space the run became) joins that run, any
other whitespace character opens a new run and becomes its single
space. -/
def collapseWhitespaceSpec (l : List Char) : List Char :=
  l.foldr (fun c acc =>
    if isPyWhitespace c then (if headIsSpace acc then acc else ' ' :: acc)
    else c :: acc) []

/-- Punctuation-run collapsing stated as in the amended specification,
as a right fold: a class character standing before a class character is
absorbed by the run to its right, so each run of two or more class
characters (identical or mixed) keeps exactly its last character. -/
def collapsePunctRunsSpec (l : List Char) : List Char :=
  l.foldr (fun c acc =>
    if isPunctCls c && headIsPunct acc then acc else c :: acc) []

/-- The cleaning pipeline assembled from the specification-style
passes. -/
def clean_text_spec (s : String) : String :=
  ⟨pyStrip (collapsePunctRunsSpec ((collapseWhitespaceSpec s.data).filter isAllowedChar))⟩

/-- Does the list start with a whitespace character? -/
def headIsWsIn : List Char → Bool
  | [] => false
  | c :: _ => isPyWhitespace c

theorem eq_space_of_beq {c : Char} (h : (c == ' ') = true) :
    isPyWhitespace c = true := by
  simp only [beq_iff_eq] at h
  subst h
  rfl

theorem beq_space_eq_false {c : Char} (h : ¬ isPyWhitespace c = true) :
    (c == ' ') = false := by
  cases hcs : c == ' ' with
  | false => rfl
  | true => exact absurd (eq_space_of_beq hcs) h

theorem collapseWhitespace_head (l : List Char) :
    headIsSpace (collapseWhitespace l) = headIsWsIn l := by
  induction l with
  | nil => rfl
  | cons c cs ih =>
    cases cs with
    | nil =>
      by_cases hc : isPyWhitespace c = true
      · simp [collapseWhitespace, headIsSpace, headIsWsIn, hc]
      · simp [collapseWhitespace, headIsSpace, headIsWsIn, hc,
          beq_space_eq_false hc]
    | cons d ds =>
      by_cases hc : isPyWhitespace c = true <;>
        by_cases hd : isPyWhitespace d = true
      · simpa [collapseWhitespace, headIsWsIn, hc, hd] using ih
      · simp [collapseWhitespace, headIsSpace, headIsWsIn, hc, hd]
      · simp [collapseWhitespace, headIsSpace, headIsWsIn, hc, hd,
          beq_space_eq_false hc]
      · simp [collapseWhitespace, headIsSpace, headIsWsIn, hc, hd,
          beq_space_eq_false hc]

theorem collapseWhitespaceSpec_cons (c : Char) (l : List Char) :
    collapseWhitespaceSpec (c :: l) =
      if isPyWhitespace c = true then
        (if headIsSpace (collapseWhitespaceSpec l) = true then
          collapseWhitespaceSpec l
        else ' ' :: collapseWhitespaceSpec l)
      else c :: collapseWhitespaceSpec l := rfl

theorem collapseWhitespace_eq_spec (l : List Char) :
    collapseWhitespaceSpec l = collapseWhitespace l := by
  induction l with
  | nil => rfl
  | cons c cs ih =>
    cases cs with
    | nil =>
      by_cases hc : isPyWhitespace c = true <;>
        simp [collapseWhitespaceSpec, collapseWhitespace, headIsSpace, hc]
    | cons d ds =>
      rw [collapseWhitespaceSpec_cons, ih, collapseWhitespace_head]
      by_cases hc : isPyWhitespace c = true <;>
        by_cases hd : isPyWhitespace d = true <;>
        simp [collapseWhitespace, headIsWsIn, hc, hd]

/-- Does the list start with a `[.,!?;:]` character (input side)? -/
def headIsPunctIn : List Char → Bool
  | [] => false
  | c :: _ => isPunctCls c

theorem collapsePunctRuns_head (l : List Char) :
    headIsPunct (collapsePunctRuns l) = headIsPunctIn l := by
  induction l with
  | nil => rfl
  | cons c cs ih =>
    cases cs with
    | nil => simp [collapsePunctRuns, headIsPunct, headIsPunctIn]
    | cons d ds =>
      by_cases hc : isPunctCls c = true <;>
        by_cases hd : isPunctCls d = true
      · simpa [collapsePunctRuns, headIsPunctIn, hc, hd] using ih
      · simp [collapsePunctRuns, headIsPunct, headIsPunctIn, hc, hd]
      · simp [collapsePunctRuns, headIsPunct, headIsPunctIn, hc, hd]
      · simp [collapsePunctRuns, headIsPunct, headIsPunctIn, hc, hd]

theorem collapsePunctRunsSpec_cons (c : Char) (l : List Char) :
    collapsePunctRunsSpec (c :: l) =
      if (isPunctCls c && headIsPunct (collapsePunctRunsSpec l)) = true then
        collapsePunctRunsSpec l
      else c :: collapsePunctRunsSpec l := rfl

theorem collapsePunctRuns_eq_spec (l : List Char) :
    collapsePunctRunsSpec l = collapsePunctRuns l := by
  induction l with
  | nil => rfl
  | cons c cs ih =>
    cases cs with
    | nil => simp [collapsePunctRunsSpec, collapsePunctRuns, headIsPunct]
    | cons d ds =>
      rw [collapsePunctRunsSpec_cons, ih, collapsePunctRuns_head]
      by_cases hc : isPunctCls c = true <;>
        by_cases hd : isPunctCls d = true <;>
        simp [collapsePunctRuns, headIsPunctIn, hc, hd]

/-- C8 (amended): `clean_text` collapses each maximal whitespace run to
a single space, removes every character outside the allow-list, then
collapses each run of two or more punctuation characters from `.,!?;:`
-- identical or mixed -- to the last character of the run, and finally
strips leading and trailing whitespace; stated as equality with the
pipeline built from the specification-style right-fold passes. -/
theorem clean_text_eq_spec (s : String) : clean_text s = clean_text_spec s := by
  unfold clean_text clean_text_spec
  rw [collapseWhitespace_eq_spec, collapsePunctRuns_eq_spec]

/-- C8 (counterexample): on input `"a!?b"` the mixed punctuation run
`!?` is not left intact: the code collapses it to its last mark, giving
`"a?b"`, while the claim predicts the run of differing marks survives as
`"a!?b"`. -/
theorem clean_text_mixed_run_counterexample :
    clean_text "a!?b" = "a?b" ∧ clean_text "a!?b" ≠ "a!?b" := by
  constructor
  · rfl
  · decide

/-! ## text_processor.py, `split_into_chunks` (lines 52-63)

`TextProcessor.split_into_chunks` delegates to langchain's
`RecursiveCharacterTextSplitter`, whose code is not part of this
repository's `src/`; the splitter is therefore modelled from the
specification (section 4.1). -/

/-- Modelled from the spec: the end position of the last occurrence of
the boundary `sep` that finishes within the first `limit` characters of
`t` (the splitter's "most semantically meaningful boundary available
within the size budget"). -/
def lastSepEnd (sep : List Char) (limit : Nat) (t : List Char) : Option Nat :=
  (((List.range (limit + 1)).filter
      (fun i => decide (i + sep.length ≤ limit) && sep.isPrefixOf (t.drop i))).map
    (fun i => i + sep.length)).max?

/-- Modelled from the spec: the cut position for an oversized text,
using the descending preference list of split boundaries -- paragraph
break, line break, sentence-ending period plus space, plain space --
falling back to a hard character cut at `size` when no boundary
exists. -/
def chunkCut (size : Nat) (t : List Char) : Nat :=
  match lastSepEnd ['\n', '\n'] size t with
  | some p => p
  | none =>
    match lastSepEnd ['\n'] size t with
    | some p => p
    | none =>
      match lastSepEnd ['.', ' '] size t with
      | some p => p
      | none =>
        match lastSepEnd [' '] size t with
        | some p => p
        | none => size

/-- Modelled from the spec: length-bounded chunking with configurable
target `size` and `overlap`.  An input shorter than `size` is one
segment; otherwise the text is cut at the preferred boundary within the
size budget and the next segment restarts `overlap` characters before
the cut. -/
def chunkSpec (size overlap : Nat) (t : List Char) : List (List Char) :=
  if t.length < size ∨ t.length = 0 then [t]
  else
    t.take (max 1 (chunkCut size t)) ::
      chunkSpec size overlap (t.drop (max 1 (max 1 (chunkCut size t) - overlap)))
termination_by t.length
decreasing_by
  rename_i h
  rw [List.length_drop]
  have h1 : 0 < t.length := by
    rcases Nat.eq_zero_or_pos t.length with h0 | h0
    · exact absurd (Or.inr h0) h
    · exact h0
  exact Nat.sub_lt h1 (Nat.le_max_left 1 _)

/-- `TextProcessor.split_into_chunks` on the spec-modelled splitter,
producing the chunk texts. -/
def split_into_chunks (chunk_size chunk_overlap : Nat) (text : String) :
    List String :=
  (chunkSpec chunk_size chunk_overlap text.data).map String.mk

/-- C7: an input whose cleaned form is shorter than the configured chunk
size is chunked into exactly one segment, equal to the cleaned text;
this includes the case of a cleaned form that is the empty string. -/
theorem chunk_short_input (size overlap : Nat) (raw : String)
    (h : (clean_text raw).length < size) :
    split_into_chunks size overlap (clean_text raw) = [clean_text raw] := by
  have h2 : (clean_text raw).data.length < size := h
  unfold split_into_chunks
  rw [chunkSpec]
  rw [if_pos (Or.inl h2)]
  rfl

/-- C7 (witness): the input `"@@@"` cleans to the empty string, which is
shorter than a chunk size of 5, and is chunked into exactly the one
(empty) segment. -/
theorem chunk_short_input_witness :
    (clean_text "@@@").length < 5 ∧
      split_into_chunks 5 2 (clean_text "@@@") = [clean_text "@@@"] :=
  ⟨by decide, chunk_short_input 5 2 "@@@" (by decide)⟩

/-! ## entity_extractor.py data types (lines 8-23) -/

/-- An extracted entity (`@dataclass Entity`): surface text, label and
character span. -/
structure Entity where
  text : String
  label : String
  start : Nat
  stop : Nat
deriving DecidableEq, Repr

/-- An extracted relation (`@dataclass Relation`). -/
structure Relation where
  source : String
  target : String
  relation_type : String
  context : String
deriving DecidableEq, Repr

/-- A langchain `Document` as the pipeline uses it: its text and the
metadata fields read by the store (`metadata.get` with defaults is
modelled by `Option`). -/
structure PyDocument where
  page_content : String
  source : Option String
  chunk_id : Option Nat
  chunk_size : Option Nat

/-! ## neo4j_store.py: the graph state -/

/-- A node of the graph.  `Entity` nodes are keyed by their `text`
property (uniqueness constraint `entity_text`), `Chunk` nodes by their
`chunk_id` property (constraint `chunk_id`); the two labels are disjoint
node tables. -/
inductive NodeRef where
  | entity (text : String)
  | chunk (id : String)
deriving DecidableEq, Repr

/-- A directed relationship.  `MERGE` identifies a relationship by its
start node, end node and type, so that triple is the key; `context`
holds the property set by `store_relations` (`MENTIONS` edges carry
none). -/
structure Edge where
  src : NodeRef
  tgt : NodeRef
  typ : String
  context : Option String
deriving DecidableEq, Repr

/-- A `Chunk` node's properties as written by
`store_chunks_with_embeddings`. -/
structure ChunkRow where
  chunk_id : String
  text : String
  embedding : List Float
  source : String
  chunk_size : Nat

/-- The persisted graph: the `Entity` node table, the `Chunk` node table
and the relationship table.  `MERGE`-based writes keep each table keyed
(entity text, chunk id, edge (src, tgt, typ) triple). -/
structure Store where
  entities : List Entity
  chunks : List ChunkRow
  edges : List Edge

/-- The empty graph. -/
def emptyStore : Store := ⟨[], [], []⟩

/-- Does an `Entity` node with the given `text` exist (the Cypher
`MATCH (e:Entity {text: $text})`)? -/
def hasEntity (s : Store) (t : String) : Bool :=
  s.entities.any (fun e => e.text == t)

/-- Does a `Chunk` node with the given `chunk_id` exist? -/
def hasChunk (s : Store) (cid : String) : Bool :=
  s.chunks.any (fun c => c.chunk_id == cid)

/-! ## neo4j_store.py, `store_entities` (lines 86-107) -/

/-- `MERGE (e:Entity {text: $text}) SET e.label, e.start, e.end`: under
the uniqueness constraint the node keyed by `text` is created or its
properties overwritten. -/
def upsertEntity (e : Entity) : List Entity → List Entity
  | [] => [e]
  | e0 :: rest =>
    if e0.text = e.text then e :: rest else e0 :: upsertEntity e rest

/-- The body of `store_entities`' loop, acting on the store. -/
def entStep (st : Store) (e : Entity) : Store :=
  { st with entities := upsertEntity e st.entities }

/-- `Neo4jGraphStore.store_entities`: one `MERGE` per entity, the
returned count incremented on every iteration. -/
def store_entities (s : Store) (es : List Entity) : Store × Nat :=
  es.foldl (fun p e => (entStep p.1 e, p.2 + 1)) (s, 0)

/-! ## neo4j_store.py, `store_relations` (lines 109-135) -/

/-- The sanitization of lines 123-125:
`relation_type.upper().replace(" ", "_").replace("-", "_")`, then the
fallback `RELATED_TO` when the result is empty or does not start with an
alphabetic character (ASCII fragment of `str.upper`/`str.isalpha`). -/
def safe_rel_type (t : String) : String :=
  match (t.data.map Char.toUpper).map
      (fun c => if c = ' ' then '_' else if c = '-' then '_' else c) with
  | [] => "RELATED_TO"
  | c :: rest => if c.isAlpha then ⟨c :: rest⟩ else "RELATED_TO"

/-- `MERGE (a)-[r:TYP]->(b)` followed by an optional `SET r.context`:
the relationship keyed by `(src, tgt, typ)` is created if absent; when a
context is supplied it is (over)written on the merged relationship. -/
def mergeEdge (src tgt : NodeRef) (typ : String) (ctx : Option String) :
    List Edge → List Edge
  | [] => [⟨src, tgt, typ, ctx⟩]
  | e0 :: rest =>
    if e0.src = src ∧ e0.tgt = tgt ∧ e0.typ = typ then
      (match ctx with
       | some c => { e0 with context := some c }
       | none => e0) :: rest
    else e0 :: mergeEdge src tgt typ ctx rest

/-- The body of `store_relations`' loop: sanitize the type, `MATCH` both
endpoint entities -- when either is absent the statement touches
nothing -- and otherwise merge the typed edge and set its context. -/
def relStep (st : Store) (r : Relation) : Store :=
  if hasEntity st r.source && hasEntity st r.target then
    { st with
      edges := mergeEdge (.entity r.source) (.entity r.target)
        (safe_rel_type r.relation_type) (some r.context) st.edges }
  else st

/-- `Neo4jGraphStore.store_relations`: one statement per relation, the
returned count incremented on every iteration, matched or not. -/
def store_relations (s : Store) (rs : List Relation) : Store × Nat :=
  rs.foldl (fun p r => (relStep p.1 r, p.2 + 1)) (s, 0)

/-! ## neo4j_store.py, `store_chunks_with_embeddings` (lines 137-167) -/

/-- The chunk id of line 155:
`f"{metadata.get('source', 'unknown')}_{metadata.get('chunk_id', n)}"`
where `n` is the running count (or the enumeration index in
`link_chunks_to_entities`). -/
def chunkIdOf (doc : PyDocument) (n : Nat) : String :=
  (doc.source.getD "unknown") ++ "_" ++
    (match doc.chunk_id with
     | some i => toString i
     | none => toString n)

/-- `MERGE (c:Chunk {chunk_id: $chunk_id}) SET c.text, c.embedding,
c.source, c.chunk_size`: the node keyed by `chunk_id` is created or
fully overwritten. -/
def upsertChunk (row : ChunkRow) : List ChunkRow → List ChunkRow
  | [] => [row]
  | c0 :: rest =>
    if c0.chunk_id = row.chunk_id then row :: rest
    else c0 :: upsertChunk row rest

/-- The `Chunk` node written for the pair `de` when the running count is
`n`. -/
def chunkRowOf (de : PyDocument × List Float) (n : Nat) : ChunkRow :=
  ⟨chunkIdOf de.1 n, de.1.page_content, de.2,
   de.1.source.getD "unknown",
   de.1.chunk_size.getD de.1.page_content.length⟩

/-- The body of `store_chunks_with_embeddings`' loop, acting on the
store-count pair (the count feeds the default chunk id). -/
def chunkStep (p : Store × Nat) (de : PyDocument × List Float) : Store × Nat :=
  ({ p.1 with chunks := upsertChunk (chunkRowOf de p.2) p.1.chunks }, p.2 + 1)

/-- `Neo4jGraphStore.store_chunks_with_embeddings`: iterate over
`zip(documents, embeddings)` -- the shorter list bounds the loop -- and
merge one `Chunk` node per pair, with no validation of the embedding's
length; the count is incremented per pair. -/
def store_chunks_with_embeddings (s : Store) (docs : List PyDocument)
    (embs : List (List Float)) : Store × Nat :=
  (docs.zip embs).foldl chunkStep (s, 0)

/-! ## neo4j_store.py, `link_chunks_to_entities` (lines 169-189) -/

/-- Python's substring test `needle in hay` on character lists. -/
def containsSub (needle : List Char) : List Char → Bool
  | [] => needle.isEmpty
  | c :: rest => needle.isPrefixOf (c :: rest) || containsSub needle rest

/-- The body of `link_chunks_to_entities`' inner loop: if the entity's
text occurs in the enumerated document's text, `MATCH` the chunk and the
entity -- touching nothing if either is absent -- and merge a `MENTIONS`
edge (no property set). -/
def mentionStep (i : Nat) (doc : PyDocument) (st : Store) (e : Entity) : Store :=
  if containsSub e.text.data doc.page_content.data then
    (if hasChunk st (chunkIdOf doc i) && hasEntity st e.text then
      { st with
        edges := mergeEdge (.chunk (chunkIdOf doc i)) (.entity e.text)
          "MENTIONS" none st.edges }
    else st)
  else st

/-- `Neo4jGraphStore.link_chunks_to_entities`: the double loop over
enumerated documents and entities. -/
def link_chunks_to_entities (s : Store) (docs : List PyDocument)
    (ents : List Entity) : Store :=
  docs.enum.foldl (fun st idoc => ents.foldl (mentionStep idoc.1 idoc.2) st) s

/-! ## neo4j_store.py, `clear_database` (255-258) and `get_statistics`
(260-284) -/

/-- `MATCH (n) DETACH DELETE n`. -/
def clear_database (_ : Store) : Store := emptyStore

/-- The number of `Entity` nodes: distinct entity texts in the table. -/
def entityCount (s : Store) : Nat :=
  (s.entities.map (fun e => e.text)).toFinset.card

/-- The number of `Chunk` nodes: distinct chunk ids in the table. -/
def chunkCount (s : Store) : Nat :=
  (s.chunks.map (fun c => c.chunk_id)).toFinset.card

/-- The `MERGE` key of a relationship. -/
def edgeKey (e : Edge) : NodeRef × NodeRef × String := (e.src, e.tgt, e.typ)

/-- The number of relationships of any type: distinct edge keys. -/
def relCount (s : Store) : Nat :=
  (s.edges.map edgeKey).toFinset.card

/-- `Neo4jGraphStore.get_statistics`, with the row semantics of its
chained Cypher query.  `MATCH (e:Entity) WITH count(e) ...` aggregates
without a grouping key and always yields one row, but the following
`MATCH (c:Chunk)` and `MATCH ()-[r]->()` each multiply the row stream by
their match count, and the later aggregations group by the carried
columns: over an empty stream they yield no rows.  So a record is
produced only when at least one chunk and at least one relationship
exist; otherwise `result.single()` is `None` and the method returns the
all-zero dictionary. -/
def get_statistics (s : Store) : Nat × Nat × Nat :=
  if 0 < chunkCount s ∧ 0 < relCount s then
    (entityCount s, chunkCount s, relCount s)
  else (0, 0, 0)

/-! ## graph_rag_pipeline.py, `process_text_file` (lines 42-81)

The pipeline's steps 1-3 (cleaning, chunking, extraction, embedding) are
deterministic functions of the input file, so one ingestion run is
parameterized by their outputs.  Steps 4-6 are the store mutations;
`create_constraints` and `create_vector_index` create schema objects and
change no node or relationship. -/

/-- The store mutations of one `process_text_file` run: entities, then
relations, then chunks, then mention edges. -/
def ingest (docs : List PyDocument) (ents : List Entity)
    (rels : List Relation) (embs : List (List Float)) (s : Store) : Store :=
  link_chunks_to_entities
    (store_chunks_with_embeddings
      (store_relations (store_entities s ents).1 rels).1 docs embs).1
    docs ents

/-! ## Key lists and basic facts about the store operations -/

/-- The entity texts present in the store (the `Entity` node keys). -/
def entityTexts (s : Store) : List String := s.entities.map (fun e => e.text)

/-- The chunk ids present in the store (the `Chunk` node keys). -/
def chunkIds (s : Store) : List String := s.chunks.map (fun c => c.chunk_id)

/-- The relationship keys present in the store. -/
def edgeKeys (s : Store) : List (NodeRef × NodeRef × String) :=
  s.edges.map edgeKey

theorem hasEntity_iff (s : Store) (t : String) :
    hasEntity s t = true ↔ t ∈ entityTexts s := by
  unfold hasEntity entityTexts
  rw [List.any_eq_true]
  simp only [beq_iff_eq, List.mem_map]

theorem hasChunk_iff (s : Store) (cid : String) :
    hasChunk s cid = true ↔ cid ∈ chunkIds s := by
  unfold hasChunk chunkIds
  rw [List.any_eq_true]
  simp only [beq_iff_eq, List.mem_map]

theorem foldl_step_fst {σ α : Type _} (f : σ → α → σ) (l : List α) (s : σ)
    (n : Nat) :
    (l.foldl (fun p a => (f p.1 a, p.2 + 1)) (s, n)).1 = l.foldl f s := by
  induction l generalizing s n with
  | nil => rfl
  | cons a t ih => exact ih (f s a) (n + 1)

theorem foldl_count_snd {σ α : Type _} (g : σ × Nat → α → σ) (l : List α)
    (s : σ) (n : Nat) :
    (l.foldl (fun p a => (g p a, p.2 + 1)) (s, n)).2 = n + l.length := by
  induction l generalizing s n with
  | nil => simp
  | cons a t ih =>
    rw [List.foldl_cons, ih]
    simp
    omega

theorem store_entities_fst (s : Store) (es : List Entity) :
    (store_entities s es).1 = es.foldl entStep s :=
  foldl_step_fst entStep es s 0

theorem store_entities_snd (s : Store) (es : List Entity) :
    (store_entities s es).2 = es.length := by
  have h := foldl_count_snd (fun p e => entStep p.1 e) es s 0
  simpa [store_entities] using h

theorem store_relations_fst (s : Store) (rs : List Relation) :
    (store_relations s rs).1 = rs.foldl relStep s :=
  foldl_step_fst relStep rs s 0

theorem store_relations_snd (s : Store) (rs : List Relation) :
    (store_relations s rs).2 = rs.length := by
  have h := foldl_count_snd (fun p r => relStep p.1 r) rs s 0
  simpa [store_relations] using h

theorem store_chunks_snd (s : Store) (docs : List PyDocument)
    (embs : List (List Float)) :
    (store_chunks_with_embeddings s docs embs).2 = (docs.zip embs).length := by
  have h := foldl_count_snd (fun p de => (chunkStep p de).1) (docs.zip embs) s 0
  simpa [store_chunks_with_embeddings, chunkStep] using h

theorem entStep_chunks (st : Store) (e : Entity) :
    (entStep st e).chunks = st.chunks := rfl

theorem entStep_edges (st : Store) (e : Entity) :
    (entStep st e).edges = st.edges := rfl

theorem relStep_entities (st : Store) (r : Relation) :
    (relStep st r).entities = st.entities := by
  unfold relStep
  split <;> rfl

theorem relStep_chunks (st : Store) (r : Relation) :
    (relStep st r).chunks = st.chunks := by
  unfold relStep
  split <;> rfl

theorem mentionStep_entities (i : Nat) (doc : PyDocument) (st : Store)
    (e : Entity) : (mentionStep i doc st e).entities = st.entities := by
  unfold mentionStep
  split <;> try rfl
  split <;> rfl

theorem mentionStep_chunks (i : Nat) (doc : PyDocument) (st : Store)
    (e : Entity) : (mentionStep i doc st e).chunks = st.chunks := by
  unfold mentionStep
  split <;> try rfl
  split <;> rfl

theorem foldl_entStep_chunks (es : List Entity) (s : Store) :
    (es.foldl entStep s).chunks = s.chunks := by
  induction es generalizing s with
  | nil => rfl
  | cons e t ih => rw [List.foldl_cons, ih, entStep_chunks]

theorem foldl_entStep_edges (es : List Entity) (s : Store) :
    (es.foldl entStep s).edges = s.edges := by
  induction es generalizing s with
  | nil => rfl
  | cons e t ih => rw [List.foldl_cons, ih, entStep_edges]

theorem foldl_relStep_entities (rs : List Relation) (s : Store) :
    (rs.foldl relStep s).entities = s.entities := by
  induction rs generalizing s with
  | nil => rfl
  | cons r t ih => rw [List.foldl_cons, ih, relStep_entities]

theorem foldl_relStep_chunks (rs : List Relation) (s : Store) :
    (rs.foldl relStep s).chunks = s.chunks := by
  induction rs generalizing s with
  | nil => rfl
  | cons r t ih => rw [List.foldl_cons, ih, relStep_chunks]

theorem chunk_fold_entities (l : List (PyDocument × List Float)) (s : Store)
    (n : Nat) : ((l.foldl chunkStep (s, n)).1).entities = s.entities := by
  induction l generalizing s n with
  | nil => rfl
  | cons de t ih => exact ih _ _

theorem chunk_fold_edges (l : List (PyDocument × List Float)) (s : Store)
    (n : Nat) : ((l.foldl chunkStep (s, n)).1).edges = s.edges := by
  induction l generalizing s n with
  | nil => rfl
  | cons de t ih => exact ih _ _

theorem mention_inner_entities (ents : List Entity) (i : Nat)
    (doc : PyDocument) (s : Store) :
    (ents.foldl (mentionStep i doc) s).entities = s.entities := by
  induction ents generalizing s with
  | nil => rfl
  | cons e t ih => rw [List.foldl_cons, ih, mentionStep_entities]

theorem mention_inner_chunks (ents : List Entity) (i : Nat)
    (doc : PyDocument) (s : Store) :
    (ents.foldl (mentionStep i doc) s).chunks = s.chunks := by
  induction ents generalizing s with
  | nil => rfl
  | cons e t ih => rw [List.foldl_cons, ih, mentionStep_chunks]

theorem link_entities (s : Store) (docs : List PyDocument)
    (ents : List Entity) :
    (link_chunks_to_entities s docs ents).entities = s.entities := by
  unfold link_chunks_to_entities
  generalize docs.enum = ps
  induction ps generalizing s with
  | nil => rfl
  | cons p t ih => rw [List.foldl_cons, ih, mention_inner_entities]

theorem link_chunks (s : Store) (docs : List PyDocument)
    (ents : List Entity) :
    (link_chunks_to_entities s docs ents).chunks = s.chunks := by
  unfold link_chunks_to_entities
  generalize docs.enum = ps
  induction ps generalizing s with
  | nil => rfl
  | cons p t ih => rw [List.foldl_cons, ih, mention_inner_chunks]

/-! ## Membership characterizations of the upserting operations -/

theorem mem_upsertEntity (e : Entity) (l : List Entity) (t : String) :
    t ∈ (upsertEntity e l).map (fun x => x.text) ↔
      t = e.text ∨ t ∈ l.map (fun x => x.text) := by
  induction l with
  | nil => simp [upsertEntity]
  | cons e0 rest ih =>
    by_cases h : e0.text = e.text
    · rw [upsertEntity, if_pos h]
      simp only [List.map_cons, List.mem_cons, h]
      tauto
    · rw [upsertEntity, if_neg h]
      simp only [List.map_cons, List.mem_cons, ih]
      tauto

theorem nodup_upsertEntity (e : Entity) (l : List Entity)
    (h : (l.map (fun x => x.text)).Nodup) :
    ((upsertEntity e l).map (fun x => x.text)).Nodup := by
  induction l with
  | nil => simp [upsertEntity]
  | cons e0 rest ih =>
    rw [List.map_cons, List.nodup_cons] at h
    by_cases he : e0.text = e.text
    · rw [upsertEntity, if_pos he, List.map_cons, List.nodup_cons]
      exact ⟨he ▸ h.1, h.2⟩
    · rw [upsertEntity, if_neg he, List.map_cons, List.nodup_cons]
      refine ⟨fun hm => ?_, ih h.2⟩
      rcases (mem_upsertEntity e rest e0.text).mp hm with h1 | h1
      · exact he h1
      · exact h.1 h1

theorem entityTexts_entStep (st : Store) (e : Entity) (t : String) :
    t ∈ entityTexts (entStep st e) ↔ t = e.text ∨ t ∈ entityTexts st :=
  mem_upsertEntity e st.entities t

theorem foldl_entStep_mem (es : List Entity) (s : Store) (t : String) :
    t ∈ entityTexts (es.foldl entStep s) ↔
      t ∈ es.map (fun e => e.text) ∨ t ∈ entityTexts s := by
  induction es generalizing s with
  | nil => simp
  | cons e rest ih =>
    rw [List.foldl_cons, ih]
    rw [List.map_cons, List.mem_cons]
    rw [entityTexts_entStep]
    tauto

theorem foldl_entStep_nodup (es : List Entity) (s : Store)
    (h : (entityTexts s).Nodup) : (entityTexts (es.foldl entStep s)).Nodup := by
  induction es generalizing s with
  | nil => exact h
  | cons e rest ih =>
    rw [List.foldl_cons]
    exact ih _ (nodup_upsertEntity e s.entities h)

theorem mem_upsertChunk (row : ChunkRow) (l : List ChunkRow) (cid : String) :
    cid ∈ (upsertChunk row l).map (fun x => x.chunk_id) ↔
      cid = row.chunk_id ∨ cid ∈ l.map (fun x => x.chunk_id) := by
  induction l with
  | nil => simp [upsertChunk]
  | cons c0 rest ih =>
    by_cases h : c0.chunk_id = row.chunk_id
    · rw [upsertChunk, if_pos h]
      simp only [List.map_cons, List.mem_cons, h]
      tauto
    · rw [upsertChunk, if_neg h]
      simp only [List.map_cons, List.mem_cons, ih]
      tauto

theorem nodup_upsertChunk (row : ChunkRow) (l : List ChunkRow)
    (h : (l.map (fun x => x.chunk_id)).Nodup) :
    ((upsertChunk row l).map (fun x => x.chunk_id)).Nodup := by
  induction l with
  | nil => simp [upsertChunk]
  | cons c0 rest ih =>
    rw [List.map_cons, List.nodup_cons] at h
    by_cases he : c0.chunk_id = row.chunk_id
    · rw [upsertChunk, if_pos he, List.map_cons, List.nodup_cons]
      exact ⟨he ▸ h.1, h.2⟩
    · rw [upsertChunk, if_neg he, List.map_cons, List.nodup_cons]
      refine ⟨fun hm => ?_, ih h.2⟩
      rcases (mem_upsertChunk row rest c0.chunk_id).mp hm with h1 | h1
      · exact he h1
      · exact h.1 h1

/-- The chunk ids generated for the zipped pairs when the running count
starts at `n`. -/
def pairIdsFrom : Nat → List (PyDocument × List Float) → List String
  | _, [] => []
  | n, de :: rest => chunkIdOf de.1 n :: pairIdsFrom (n + 1) rest

theorem chunk_fold_mem (l : List (PyDocument × List Float)) (s : Store)
    (n : Nat) (cid : String) :
    cid ∈ chunkIds ((l.foldl chunkStep (s, n)).1) ↔
      cid ∈ pairIdsFrom n l ∨ cid ∈ chunkIds s := by
  induction l generalizing s n with
  | nil => simp [pairIdsFrom]
  | cons de rest ih =>
    rw [List.foldl_cons]
    show cid ∈ chunkIds ((rest.foldl chunkStep
      ({ s with chunks := upsertChunk (chunkRowOf de n) s.chunks }, n + 1)).1) ↔ _
    rw [ih]
    rw [pairIdsFrom, List.mem_cons]
    have hm : cid ∈ chunkIds { s with chunks := upsertChunk (chunkRowOf de n) s.chunks } ↔
        cid = chunkIdOf de.1 n ∨ cid ∈ chunkIds s :=
      mem_upsertChunk (chunkRowOf de n) s.chunks cid
    rw [hm]
    tauto

theorem chunk_fold_nodup (l : List (PyDocument × List Float)) (s : Store)
    (n : Nat) (h : (chunkIds s).Nodup) :
    (chunkIds ((l.foldl chunkStep (s, n)).1)).Nodup := by
  induction l generalizing s n with
  | nil => exact h
  | cons de rest ih =>
    rw [List.foldl_cons]
    exact ih _ _ (nodup_upsertChunk (chunkRowOf de n) s.chunks h)

/-! ## Membership characterization of the edge-writing operations -/

theorem mem_mergeEdge_keys (src tgt : NodeRef) (typ : String)
    (ctx : Option String) (l : List Edge) (k : NodeRef × NodeRef × String) :
    k ∈ (mergeEdge src tgt typ ctx l).map edgeKey ↔
      k = (src, tgt, typ) ∨ k ∈ l.map edgeKey := by
  induction l with
  | nil => simp [mergeEdge, edgeKey]
  | cons e0 rest ih =>
    by_cases h : e0.src = src ∧ e0.tgt = tgt ∧ e0.typ = typ
    · obtain ⟨h1, h2, h3⟩ := h
      have hk : edgeKey e0 = (src, tgt, typ) := by
        rw [edgeKey, h1, h2, h3]
      simp only [mergeEdge]
      rw [if_pos ⟨h1, h2, h3⟩]
      cases ctx with
      | none =>
        simp only [List.map_cons, List.mem_cons, hk]
        tauto
      | some c =>
        have hk2 : edgeKey { e0 with context := some c } = (src, tgt, typ) := hk
        simp only [List.map_cons, List.mem_cons, hk2, hk]
        tauto
    · simp only [mergeEdge]
      rw [if_neg h]
      simp only [List.map_cons, List.mem_cons, ih]
      tauto

theorem nodup_mergeEdge_keys (src tgt : NodeRef) (typ : String)
    (ctx : Option String) (l : List Edge)
    (h : (l.map edgeKey).Nodup) :
    ((mergeEdge src tgt typ ctx l).map edgeKey).Nodup := by
  induction l with
  | nil => simp [mergeEdge]
  | cons e0 rest ih =>
    rw [List.map_cons, List.nodup_cons] at h
    by_cases he : e0.src = src ∧ e0.tgt = tgt ∧ e0.typ = typ
    · obtain ⟨h1, h2, h3⟩ := he
      simp only [mergeEdge]
      rw [if_pos ⟨h1, h2, h3⟩]
      cases ctx with
      | none => rw [List.map_cons, List.nodup_cons]; exact ⟨h.1, h.2⟩
      | some c =>
        rw [List.map_cons, List.nodup_cons]
        have hk2 : edgeKey { e0 with context := some c } = edgeKey e0 := rfl
        rw [hk2]
        exact ⟨h.1, h.2⟩
    · simp only [mergeEdge]
      rw [if_neg he, List.map_cons, List.nodup_cons]
      refine ⟨fun hm => ?_, ih h.2⟩
      rcases (mem_mergeEdge_keys src tgt typ ctx rest (edgeKey e0)).mp hm with h1 | h1
      · exact he (by
          have c1 : e0.src = src := congrArg Prod.fst h1
          have c2 : e0.tgt = tgt := congrArg (fun p => p.2.1) h1
          have c3 : e0.typ = typ := congrArg (fun p => p.2.2) h1
          exact ⟨c1, c2, c3⟩)
      · exact h.1 h1

/-- The condition under which `store_relations` writes an edge for `r`:
both endpoint entities were matched. -/
def relCond (s : Store) (r : Relation) : Prop :=
  hasEntity s r.source = true ∧ hasEntity s r.target = true

/-- The key of the edge written for the relation `r`. -/
def relKey (r : Relation) : NodeRef × NodeRef × String :=
  (.entity r.source, .entity r.target, safe_rel_type r.relation_type)

theorem relStep_pos {st : Store} {r : Relation} (hc : relCond st r) :
    relStep st r =
      { st with
        edges := mergeEdge (.entity r.source) (.entity r.target)
          (safe_rel_type r.relation_type) (some r.context) st.edges } := by
  have hb : (hasEntity st r.source && hasEntity st r.target) = true := by
    rw [Bool.and_eq_true]
    exact ⟨hc.1, hc.2⟩
  unfold relStep
  rw [if_pos hb]

theorem relStep_neg {st : Store} {r : Relation} (hc : ¬ relCond st r) :
    relStep st r = st := by
  have hb : ¬ (hasEntity st r.source && hasEntity st r.target) = true := by
    rw [Bool.and_eq_true]
    exact fun hb => hc ⟨hb.1, hb.2⟩
  unfold relStep
  rw [if_neg hb]

theorem hasEntity_relStep (st : Store) (r : Relation) (t : String) :
    hasEntity (relStep st r) t = hasEntity st t := by
  unfold hasEntity
  rw [relStep_entities]

theorem relCond_relStep (st : Store) (r r' : Relation) :
    relCond (relStep st r) r' ↔ relCond st r' := by
  unfold relCond
  rw [hasEntity_relStep, hasEntity_relStep]

theorem foldl_relStep_keys (rs : List Relation) (s : Store)
    (k : NodeRef × NodeRef × String) :
    k ∈ edgeKeys (rs.foldl relStep s) ↔
      (∃ r ∈ rs, relCond s r ∧ k = relKey r) ∨ k ∈ edgeKeys s := by
  induction rs generalizing s with
  | nil => simp
  | cons r rest ih =>
    rw [List.foldl_cons, ih]
    simp only [relCond_relStep, List.exists_mem_cons_iff]
    by_cases hc : relCond s r
    · rw [relStep_pos hc]
      have hm : k ∈ edgeKeys
          { s with
            edges := mergeEdge (.entity r.source) (.entity r.target)
              (safe_rel_type r.relation_type) (some r.context) s.edges } ↔
          k = relKey r ∨ k ∈ edgeKeys s :=
        mem_mergeEdge_keys _ _ _ _ s.edges k
      rw [hm]
      generalize (∃ r ∈ rest, relCond s r ∧ k = relKey r) = P
      tauto
    · rw [relStep_neg hc]
      generalize (∃ r ∈ rest, relCond s r ∧ k = relKey r) = P
      tauto

/-- The key of the mention edge written for entity `e` in the
enumerated document `(i, doc)`. -/
def mentionKey (i : Nat) (doc : PyDocument) (e : Entity) :
    NodeRef × NodeRef × String :=
  (.chunk (chunkIdOf doc i), .entity e.text, "MENTIONS")

/-- The condition under which `link_chunks_to_entities` writes the
mention edge: the entity text occurs in the document and both nodes were
matched. -/
def mentionCond (s : Store) (i : Nat) (doc : PyDocument) (e : Entity) : Prop :=
  containsSub e.text.data doc.page_content.data = true ∧
    hasChunk s (chunkIdOf doc i) = true ∧ hasEntity s e.text = true

theorem mentionStep_pos {st : Store} {i : Nat} {doc : PyDocument} {e : Entity}
    (hc : mentionCond st i doc e) :
    mentionStep i doc st e =
      { st with
        edges := mergeEdge (.chunk (chunkIdOf doc i)) (.entity e.text)
          "MENTIONS" none st.edges } := by
  have hb : (hasChunk st (chunkIdOf doc i) && hasEntity st e.text) = true := by
    rw [Bool.and_eq_true]
    exact ⟨hc.2.1, hc.2.2⟩
  unfold mentionStep
  rw [if_pos hc.1, if_pos hb]

theorem mentionStep_neg {st : Store} {i : Nat} {doc : PyDocument} {e : Entity}
    (hc : ¬ mentionCond st i doc e) : mentionStep i doc st e = st := by
  unfold mentionStep
  by_cases h1 : containsSub e.text.data doc.page_content.data = true
  · rw [if_pos h1]
    by_cases h2 : (hasChunk st (chunkIdOf doc i) && hasEntity st e.text) = true
    · rw [Bool.and_eq_true] at h2
      exact absurd ⟨h1, h2.1, h2.2⟩ hc
    · rw [if_neg h2]
  · rw [if_neg h1]

theorem mentionCond_mentionStep (st : Store) (i : Nat) (doc : PyDocument)
    (e : Entity) (i' : Nat) (doc' : PyDocument) (e' : Entity) :
    mentionCond (mentionStep i doc st e) i' doc' e' ↔
      mentionCond st i' doc' e' := by
  unfold mentionCond hasChunk hasEntity
  rw [mentionStep_chunks, mentionStep_entities]

theorem mention_inner_keys (ents : List Entity) (i : Nat) (doc : PyDocument)
    (s : Store) (k : NodeRef × NodeRef × String) :
    k ∈ edgeKeys (ents.foldl (mentionStep i doc) s) ↔
      (∃ e ∈ ents, mentionCond s i doc e ∧ k = mentionKey i doc e) ∨
        k ∈ edgeKeys s := by
  induction ents generalizing s with
  | nil => simp
  | cons e rest ih =>
    rw [List.foldl_cons, ih]
    simp only [mentionCond_mentionStep, List.exists_mem_cons_iff]
    by_cases hc : mentionCond s i doc e
    · rw [mentionStep_pos hc]
      have hm : k ∈ edgeKeys
          { s with
            edges := mergeEdge (.chunk (chunkIdOf doc i)) (.entity e.text)
              "MENTIONS" none s.edges } ↔
          k = mentionKey i doc e ∨ k ∈ edgeKeys s :=
        mem_mergeEdge_keys _ _ _ _ s.edges k
      rw [hm]
      generalize (∃ e ∈ rest, mentionCond s i doc e ∧ k = mentionKey i doc e) = P
      tauto
    · rw [mentionStep_neg hc]
      generalize (∃ e ∈ rest, mentionCond s i doc e ∧ k = mentionKey i doc e) = P
      tauto

theorem mentionCond_inner (ents : List Entity) (i : Nat) (doc : PyDocument)
    (s : Store) (i' : Nat) (doc' : PyDocument) (e' : Entity) :
    mentionCond (ents.foldl (mentionStep i doc) s) i' doc' e' ↔
      mentionCond s i' doc' e' := by
  unfold mentionCond hasChunk hasEntity
  rw [mention_inner_chunks, mention_inner_entities]

theorem mention_outer_keys (ps : List (Nat × PyDocument)) (ents : List Entity)
    (s : Store) (k : NodeRef × NodeRef × String) :
    k ∈ edgeKeys
        (ps.foldl (fun st p => ents.foldl (mentionStep p.1 p.2) st) s) ↔
      (∃ p ∈ ps, ∃ e ∈ ents,
          mentionCond s p.1 p.2 e ∧ k = mentionKey p.1 p.2 e) ∨
        k ∈ edgeKeys s := by
  induction ps generalizing s with
  | nil => simp
  | cons p rest ih =>
    rw [List.foldl_cons, ih]
    simp only [mentionCond_inner, List.exists_mem_cons_iff]
    rw [mention_inner_keys]
    generalize (∃ p ∈ rest, ∃ e ∈ ents,
      mentionCond s p.1 p.2 e ∧ k = mentionKey p.1 p.2 e) = P
    generalize (∃ e ∈ ents,
      mentionCond s p.1 p.2 e ∧ k = mentionKey p.1 p.2 e) = Q
    tauto

theorem link_keys (s : Store) (docs : List PyDocument) (ents : List Entity)
    (k : NodeRef × NodeRef × String) :
    k ∈ edgeKeys (link_chunks_to_entities s docs ents) ↔
      (∃ p ∈ docs.enum, ∃ e ∈ ents,
          mentionCond s p.1 p.2 e ∧ k = mentionKey p.1 p.2 e) ∨
        k ∈ edgeKeys s :=
  mention_outer_keys docs.enum ents s k

/-! ## Statistics depend only on the key sets -/

theorem mem_entityTexts_of_eq {s1 s2 : Store} (h : s1.entities = s2.entities)
    (t : String) : t ∈ entityTexts s1 ↔ t ∈ entityTexts s2 := by
  unfold entityTexts
  rw [h]

theorem mem_chunkIds_of_eq {s1 s2 : Store} (h : s1.chunks = s2.chunks)
    (cid : String) : cid ∈ chunkIds s1 ↔ cid ∈ chunkIds s2 := by
  unfold chunkIds
  rw [h]

theorem mem_edgeKeys_of_eq {s1 s2 : Store} (h : s1.edges = s2.edges)
    (k : NodeRef × NodeRef × String) : k ∈ edgeKeys s1 ↔ k ∈ edgeKeys s2 := by
  unfold edgeKeys
  rw [h]

theorem entityCount_congr {s1 s2 : Store}
    (h : ∀ t, t ∈ entityTexts s1 ↔ t ∈ entityTexts s2) :
    entityCount s1 = entityCount s2 := by
  unfold entityCount
  congr 1
  apply Finset.ext
  intro a
  rw [List.mem_toFinset, List.mem_toFinset]
  exact h a

theorem chunkCount_congr {s1 s2 : Store}
    (h : ∀ cid, cid ∈ chunkIds s1 ↔ cid ∈ chunkIds s2) :
    chunkCount s1 = chunkCount s2 := by
  unfold chunkCount
  congr 1
  apply Finset.ext
  intro a
  rw [List.mem_toFinset, List.mem_toFinset]
  exact h a

theorem relCount_congr {s1 s2 : Store}
    (h : ∀ k, k ∈ edgeKeys s1 ↔ k ∈ edgeKeys s2) :
    relCount s1 = relCount s2 := by
  unfold relCount
  congr 1
  apply Finset.ext
  intro a
  rw [List.mem_toFinset, List.mem_toFinset]
  exact h a

theorem get_statistics_congr {s1 s2 : Store}
    (he : ∀ t, t ∈ entityTexts s1 ↔ t ∈ entityTexts s2)
    (hc : ∀ cid, cid ∈ chunkIds s1 ↔ cid ∈ chunkIds s2)
    (hk : ∀ k, k ∈ edgeKeys s1 ↔ k ∈ edgeKeys s2) :
    get_statistics s1 = get_statistics s2 := by
  unfold get_statistics
  rw [entityCount_congr he, chunkCount_congr hc, relCount_congr hk]

/-! ## The tables written by one ingestion run -/

theorem store_entities_chunks (s : Store) (es : List Entity) :
    (store_entities s es).1.chunks = s.chunks := by
  rw [store_entities_fst]
  exact foldl_entStep_chunks es s

theorem store_entities_edges (s : Store) (es : List Entity) :
    (store_entities s es).1.edges = s.edges := by
  rw [store_entities_fst]
  exact foldl_entStep_edges es s

theorem store_entities_mem (s : Store) (es : List Entity) (t : String) :
    t ∈ entityTexts (store_entities s es).1 ↔
      t ∈ es.map (fun e => e.text) ∨ t ∈ entityTexts s := by
  rw [store_entities_fst]
  exact foldl_entStep_mem es s t

theorem store_relations_entities (s : Store) (rs : List Relation) :
    (store_relations s rs).1.entities = s.entities := by
  rw [store_relations_fst]
  exact foldl_relStep_entities rs s

theorem store_relations_chunks (s : Store) (rs : List Relation) :
    (store_relations s rs).1.chunks = s.chunks := by
  rw [store_relations_fst]
  exact foldl_relStep_chunks rs s

theorem store_relations_keys (s : Store) (rs : List Relation)
    (k : NodeRef × NodeRef × String) :
    k ∈ edgeKeys (store_relations s rs).1 ↔
      (∃ r ∈ rs, relCond s r ∧ k = relKey r) ∨ k ∈ edgeKeys s := by
  rw [store_relations_fst]
  exact foldl_relStep_keys rs s k

theorem store_chunks_entities (s : Store) (docs : List PyDocument)
    (embs : List (List Float)) :
    (store_chunks_with_embeddings s docs embs).1.entities = s.entities :=
  chunk_fold_entities (docs.zip embs) s 0

theorem store_chunks_edges (s : Store) (docs : List PyDocument)
    (embs : List (List Float)) :
    (store_chunks_with_embeddings s docs embs).1.edges = s.edges :=
  chunk_fold_edges (docs.zip embs) s 0

theorem store_chunks_mem (s : Store) (docs : List PyDocument)
    (embs : List (List Float)) (cid : String) :
    cid ∈ chunkIds (store_chunks_with_embeddings s docs embs).1 ↔
      cid ∈ pairIdsFrom 0 (docs.zip embs) ∨ cid ∈ chunkIds s :=
  chunk_fold_mem (docs.zip embs) s 0 cid

/-- An entity text is present after `store_entities es` ran against
`s`. -/
def entityAfter (ents : List Entity) (s : Store) (t : String) : Prop :=
  t ∈ ents.map (fun e => e.text) ∨ t ∈ entityTexts s

/-- A chunk id is present after `store_chunks_with_embeddings` ran
against `s`. -/
def chunkAfter (docs : List PyDocument) (embs : List (List Float))
    (s : Store) (cid : String) : Prop :=
  cid ∈ pairIdsFrom 0 (docs.zip embs) ∨ cid ∈ chunkIds s

/-- The condition under which the pipeline run writes the typed edge of
relation `r`, phrased against the pre-run store. -/
def relAfter (ents : List Entity) (s : Store) (r : Relation) : Prop :=
  entityAfter ents s r.source ∧ entityAfter ents s r.target

/-- The condition under which the pipeline run writes the mention edge
of entity `e` in enumerated document `(i, doc)`, phrased against the
pre-run store. -/
def mentionAfter (docs : List PyDocument) (embs : List (List Float))
    (ents : List Entity) (s : Store) (i : Nat) (doc : PyDocument)
    (e : Entity) : Prop :=
  containsSub e.text.data doc.page_content.data = true ∧
    chunkAfter docs embs s (chunkIdOf doc i) ∧ entityAfter ents s e.text

theorem ingest_entityTexts (docs : List PyDocument) (ents : List Entity)
    (rels : List Relation) (embs : List (List Float)) (s : Store)
    (t : String) :
    t ∈ entityTexts (ingest docs ents rels embs s) ↔
      t ∈ ents.map (fun e => e.text) ∨ t ∈ entityTexts s := by
  unfold ingest
  rw [mem_entityTexts_of_eq (link_entities _ _ _)]
  rw [mem_entityTexts_of_eq (store_chunks_entities _ _ _)]
  rw [mem_entityTexts_of_eq (store_relations_entities _ _)]
  exact store_entities_mem s ents t

theorem ingest_chunkIds (docs : List PyDocument) (ents : List Entity)
    (rels : List Relation) (embs : List (List Float)) (s : Store)
    (cid : String) :
    cid ∈ chunkIds (ingest docs ents rels embs s) ↔
      cid ∈ pairIdsFrom 0 (docs.zip embs) ∨ cid ∈ chunkIds s := by
  unfold ingest
  rw [mem_chunkIds_of_eq (link_chunks _ _ _)]
  rw [store_chunks_mem]
  rw [mem_chunkIds_of_eq (store_relations_chunks _ _)]
  rw [mem_chunkIds_of_eq (store_entities_chunks _ _)]

theorem ingest_edgeKeys (docs : List PyDocument) (ents : List Entity)
    (rels : List Relation) (embs : List (List Float)) (s : Store)
    (k : NodeRef × NodeRef × String) :
    k ∈ edgeKeys (ingest docs ents rels embs s) ↔
      (∃ p ∈ docs.enum, ∃ e ∈ ents,
          mentionAfter docs embs ents s p.1 p.2 e ∧
            k = mentionKey p.1 p.2 e) ∨
        ((∃ r ∈ rels, relAfter ents s r ∧ k = relKey r) ∨ k ∈ edgeKeys s) := by
  unfold ingest
  rw [link_keys]
  have hcond : ∀ (i : Nat) (doc : PyDocument) (e : Entity),
      mentionCond
          (store_chunks_with_embeddings
            (store_relations (store_entities s ents).1 rels).1 docs embs).1
          i doc e ↔
        mentionAfter docs embs ents s i doc e := by
    intro i doc e
    unfold mentionCond mentionAfter chunkAfter entityAfter
    rw [hasChunk_iff, hasEntity_iff]
    rw [store_chunks_mem]
    rw [mem_chunkIds_of_eq (store_relations_chunks _ _)]
    rw [mem_chunkIds_of_eq (store_entities_chunks _ _)]
    rw [mem_entityTexts_of_eq (store_chunks_entities _ _ _)]
    rw [mem_entityTexts_of_eq (store_relations_entities _ _)]
    rw [store_entities_mem]
  simp only [hcond]
  rw [mem_edgeKeys_of_eq (store_chunks_edges _ _ _)]
  rw [store_relations_keys]
  have hrc : ∀ r : Relation,
      relCond (store_entities s ents).1 r ↔ relAfter ents s r := by
    intro r
    unfold relCond relAfter entityAfter
    rw [hasEntity_iff, hasEntity_iff, store_entities_mem, store_entities_mem]
  simp only [hrc]
  rw [mem_edgeKeys_of_eq (store_entities_edges _ _)]

theorem entityAfter_ingest (docs : List PyDocument) (ents : List Entity)
    (rels : List Relation) (embs : List (List Float)) (s : Store)
    (t : String) :
    entityAfter ents (ingest docs ents rels embs s) t ↔
      entityAfter ents s t := by
  unfold entityAfter
  rw [ingest_entityTexts]
  tauto

theorem chunkAfter_ingest (docs : List PyDocument) (ents : List Entity)
    (rels : List Relation) (embs : List (List Float)) (s : Store)
    (cid : String) :
    chunkAfter docs embs (ingest docs ents rels embs s) cid ↔
      chunkAfter docs embs s cid := by
  unfold chunkAfter
  rw [ingest_chunkIds]
  tauto

theorem relAfter_ingest (docs : List PyDocument) (ents : List Entity)
    (rels : List Relation) (embs : List (List Float)) (s : Store)
    (r : Relation) :
    relAfter ents (ingest docs ents rels embs s) r ↔ relAfter ents s r := by
  unfold relAfter
  rw [entityAfter_ingest, entityAfter_ingest]

theorem mentionAfter_ingest (docs : List PyDocument) (ents : List Entity)
    (rels : List Relation) (embs : List (List Float)) (s : Store) (i : Nat)
    (doc : PyDocument) (e : Entity) :
    mentionAfter docs embs ents (ingest docs ents rels embs s) i doc e ↔
      mentionAfter docs embs ents s i doc e := by
  unfold mentionAfter
  rw [chunkAfter_ingest, entityAfter_ingest]

/-- C2: ingesting the same document twice against the same store leaves
the `statistics()` output identical: the second run of the pipeline's
store mutations (entities, relations, chunks, mention links, all
`MERGE`-keyed) changes none of the three reported counts, whatever the
starting store and whatever chunking, extraction and embedding results
the (deterministic) front half produced for the document. -/
theorem ingest_twice_statistics_eq (docs : List PyDocument)
    (ents : List Entity) (rels : List Relation) (embs : List (List Float))
    (s : Store) :
    get_statistics (ingest docs ents rels embs (ingest docs ents rels embs s)) =
      get_statistics (ingest docs ents rels embs s) := by
  apply get_statistics_congr
  · intro t
    rw [ingest_entityTexts, ingest_entityTexts]
    tauto
  · intro cid
    rw [ingest_chunkIds, ingest_chunkIds]
    tauto
  · intro k
    rw [ingest_edgeKeys]
    simp only [mentionAfter_ingest, relAfter_ingest]
    rw [ingest_edgeKeys]
    generalize (∃ p ∈ docs.enum, ∃ e ∈ ents,
      mentionAfter docs embs ents s p.1 p.2 e ∧ k = mentionKey p.1 p.2 e) = P
    generalize (∃ r ∈ rels, relAfter ents s r ∧ k = relKey r) = Q
    tauto

/-! ## C1: relation-type sanitization -/

theorem mem_mergeEdge (src tgt : NodeRef) (typ : String) (ctx : Option String)
    (l : List Edge) (e : Edge) (he : e ∈ mergeEdge src tgt typ ctx l) :
    e ∈ l ∨ e.typ = typ := by
  induction l with
  | nil =>
    simp only [mergeEdge, List.mem_singleton] at he
    exact Or.inr (by rw [he])
  | cons e0 rest ih =>
    by_cases h : e0.src = src ∧ e0.tgt = tgt ∧ e0.typ = typ
    · obtain ⟨h1, h2, h3⟩ := h
      simp only [mergeEdge] at he
      rw [if_pos ⟨h1, h2, h3⟩] at he
      rcases List.mem_cons.mp he with h4 | h4
      · cases ctx with
        | none => exact Or.inr (h4 ▸ h3)
        | some c => exact Or.inr (h4 ▸ h3)
      · exact Or.inl (List.mem_cons_of_mem _ h4)
    · simp only [mergeEdge] at he
      rw [if_neg h] at he
      rcases List.mem_cons.mp he with h4 | h4
      · exact Or.inl (h4 ▸ List.mem_cons_self _ _)
      · rcases ih h4 with h5 | h5
        · exact Or.inl (List.mem_cons_of_mem _ h5)
        · exact Or.inr h5

theorem relStep_mem_edges (st : Store) (r : Relation) (e : Edge)
    (he : e ∈ (relStep st r).edges) :
    e ∈ st.edges ∨ e.typ = safe_rel_type r.relation_type := by
  by_cases hc : relCond st r
  · rw [relStep_pos hc] at he
    exact mem_mergeEdge _ _ _ _ st.edges e he
  · rw [relStep_neg hc] at he
    exact Or.inl he

theorem foldl_relStep_mem_edges (rs : List Relation) (s : Store) (e : Edge)
    (he : e ∈ (rs.foldl relStep s).edges) :
    e ∈ s.edges ∨ ∃ r ∈ rs, e.typ = safe_rel_type r.relation_type := by
  induction rs generalizing s with
  | nil => exact Or.inl he
  | cons r rest ih =>
    rw [List.foldl_cons] at he
    rcases ih (relStep s r) he with h1 | h1
    · rcases relStep_mem_edges s r e h1 with h2 | h2
      · exact Or.inl h2
      · exact Or.inr ⟨r, List.mem_cons_self _ _, h2⟩
    · obtain ⟨r', hr', ht⟩ := h1
      exact Or.inr ⟨r', List.mem_cons_of_mem _ hr', ht⟩

/-- C1: every edge `store_relations` writes to the graph carries the
sanitized relation type -- the raw type uppercased with spaces and
hyphens replaced by underscores, with the fallback `RELATED_TO` when the
result is empty or does not start with an alphabetic character; in
particular `"co-founded by"` becomes `CO_FOUNDED_BY` while `"123"` and
`""` fall back to `RELATED_TO`. -/
theorem relation_types_sanitized (s : Store) (rs : List Relation) (e : Edge)
    (he : e ∈ (store_relations s rs).1.edges) :
    (e ∈ s.edges ∨ ∃ r ∈ rs, e.typ = safe_rel_type r.relation_type) ∧
      safe_rel_type "co-founded by" = "CO_FOUNDED_BY" ∧
      safe_rel_type "123" = "RELATED_TO" ∧
      safe_rel_type "" = "RELATED_TO" := by
  rw [store_relations_fst] at he
  exact ⟨foldl_relStep_mem_edges rs s e he, by decide, by decide, by decide⟩

/-- C1 (witness): storing the relation `(A, co-founded by, B)` between
two existing entities writes the edge typed `CO_FOUNDED_BY`. -/
theorem relation_types_sanitized_witness :
    (⟨.entity "A", .entity "B", "CO_FOUNDED_BY", some "c"⟩ : Edge) ∈
        (store_relations
          (store_entities emptyStore
            [⟨"A", "ORG", 0, 1⟩, ⟨"B", "ORG", 2, 3⟩]).1
          [⟨"A", "B", "co-founded by", "c"⟩]).1.edges ∧
      ((⟨.entity "A", .entity "B", "CO_FOUNDED_BY", some "c"⟩ : Edge) ∈
          (store_entities emptyStore
            [⟨"A", "ORG", 0, 1⟩, ⟨"B", "ORG", 2, 3⟩]).1.edges ∨
        ∃ r ∈ [(⟨"A", "B", "co-founded by", "c"⟩ : Relation)],
          (⟨.entity "A", .entity "B", "CO_FOUNDED_BY", some "c"⟩ : Edge).typ =
            safe_rel_type r.relation_type) ∧
      safe_rel_type "co-founded by" = "CO_FOUNDED_BY" ∧
      safe_rel_type "123" = "RELATED_TO" ∧
      safe_rel_type "" = "RELATED_TO" :=
  ⟨by decide,
   relation_types_sanitized
     (store_entities emptyStore [⟨"A", "ORG", 0, 1⟩, ⟨"B", "ORG", 2, 3⟩]).1
     [⟨"A", "B", "co-founded by", "c"⟩]
     ⟨.entity "A", .entity "B", "CO_FOUNDED_BY", some "c"⟩ (by decide)⟩

/-! ## C3: at most one Entity node per text, latest write wins -/

/-- A sequence of `store_entities` calls against an initially empty
store. -/
def applyEntityBatches (bs : List (List Entity)) : Store :=
  bs.foldl (fun st es => (store_entities st es).1) emptyStore

theorem store_entities_nodup (s : Store) (es : List Entity)
    (h : (entityTexts s).Nodup) :
    (entityTexts (store_entities s es).1).Nodup := by
  rw [store_entities_fst]
  exact foldl_entStep_nodup es s h

/-- C3: after any sequence of `store_entities` calls the store holds at
most one Entity node per distinct text value, and upserting two entities
with the same text and different labels in sequence leaves exactly one
node carrying the second label (latest write wins). -/
theorem entity_unique_per_text :
    (∀ (bs : List (List Entity)) (t : String),
        ((applyEntityBatches bs).entities.countP
            (fun e => e.text == t)) ≤ 1) ∧
      (store_entities
          (store_entities emptyStore [⟨"Apple", "ORG", 0, 5⟩]).1
          [⟨"Apple", "PERSON", 3, 8⟩]).1.entities =
        [⟨"Apple", "PERSON", 3, 8⟩] := by
  constructor
  · intro bs t
    have hwf : (entityTexts (applyEntityBatches bs)).Nodup := by
      unfold applyEntityBatches
      have hgen : ∀ s : Store, (entityTexts s).Nodup →
          (entityTexts (bs.foldl (fun st es => (store_entities st es).1) s)).Nodup := by
        induction bs with
        | nil => exact fun s h => h
        | cons es rest ih =>
          intro s h
          exact ih _ (store_entities_nodup s es h)
      exact hgen emptyStore (by simp [entityTexts, emptyStore])
    have h1 : (applyEntityBatches bs).entities.countP (fun e => e.text == t) =
        (entityTexts (applyEntityBatches bs)).count t := by
      unfold entityTexts
      rw [List.count, List.countP_map]
      rfl
    rw [h1]
    exact List.nodup_iff_count_le_one.mp hwf t
  · decide

/-! ## C4: dangling relations are silently skipped but counted -/

theorem hasEntity_foldl_relStep (rs : List Relation) (s : Store)
    (t : String) : hasEntity (rs.foldl relStep s) t = hasEntity s t := by
  unfold hasEntity
  rw [foldl_relStep_entities]

/-- C4: a relation whose source or target entity does not exist writes
no edge and raises no error -- the resulting store is identical to the
one produced without that relation, so the statistics output is
unaffected by it -- while the count returned by `store_relations` still
includes the skipped relation. -/
theorem dangling_relation_skipped (s : Store) (rs1 rs2 : List Relation)
    (r : Relation)
    (h : hasEntity s r.source = false ∨ hasEntity s r.target = false) :
    (store_relations s (rs1 ++ r :: rs2)).1 =
        (store_relations s (rs1 ++ rs2)).1 ∧
      (store_relations s (rs1 ++ r :: rs2)).2 = rs1.length + 1 + rs2.length ∧
      get_statistics (store_relations s (rs1 ++ r :: rs2)).1 =
        get_statistics (store_relations s (rs1 ++ rs2)).1 := by
  have hstate : (store_relations s (rs1 ++ r :: rs2)).1 =
      (store_relations s (rs1 ++ rs2)).1 := by
    rw [store_relations_fst, store_relations_fst]
    rw [List.foldl_append, List.foldl_append, List.foldl_cons]
    have hnc : ¬ relCond (rs1.foldl relStep s) r := by
      intro hc
      unfold relCond at hc
      rw [hasEntity_foldl_relStep, hasEntity_foldl_relStep] at hc
      rcases h with h1 | h1
      · rw [h1] at hc
        exact Bool.false_ne_true hc.1
      · rw [h1] at hc
        exact Bool.false_ne_true hc.2
    rw [relStep_neg hnc]
  refine ⟨hstate, ?_, congrArg get_statistics hstate⟩
  rw [store_relations_snd]
  simp [List.length_append]
  omega

/-- C4 (witness): against the empty store, the relation `(X, t, Y)` has
no endpoints, creates nothing, leaves the statistics unchanged, and is
still counted. -/
theorem dangling_relation_skipped_witness :
    (hasEntity emptyStore "X" = false ∨ hasEntity emptyStore "Y" = false) ∧
      ((store_relations emptyStore
            (([] : List Relation) ++ (⟨"X", "Y", "t", "c"⟩ : Relation) :: [])).1 =
          (store_relations emptyStore
            (([] : List Relation) ++ ([] : List Relation))).1 ∧
        (store_relations emptyStore
            (([] : List Relation) ++ (⟨"X", "Y", "t", "c"⟩ : Relation) :: [])).2 =
          ([] : List Relation).length + 1 + ([] : List Relation).length ∧
        get_statistics (store_relations emptyStore
            (([] : List Relation) ++ (⟨"X", "Y", "t", "c"⟩ : Relation) :: [])).1 =
          get_statistics (store_relations emptyStore
            (([] : List Relation) ++ ([] : List Relation))).1) :=
  ⟨Or.inl (by decide),
   dangling_relation_skipped emptyStore [] [] ⟨"X", "Y", "t", "c"⟩
     (Or.inl (by decide))⟩

/-! ## C5: statistics on reachable stores -/

/-- One mutating call against the store. -/
inductive StoreOp where
  | entities (es : List Entity)
  | relations (rs : List Relation)
  | chunks (docs : List PyDocument) (embs : List (List Float))
  | link (docs : List PyDocument) (ents : List Entity)
  | clear

/-- Apply one mutating call. -/
def applyOp (s : Store) : StoreOp → Store
  | .entities es => (store_entities s es).1
  | .relations rs => (store_relations s rs).1
  | .chunks docs embs => (store_chunks_with_embeddings s docs embs).1
  | .link docs ents => link_chunks_to_entities s docs ents
  | .clear => clear_database s

/-- The store reached by a sequence of calls from the empty store. -/
def runOps (ops : List StoreOp) : Store := ops.foldl applyOp emptyStore

/-- The store's three tables are duplicate-free on their `MERGE` keys,
as the uniqueness constraints and the merge semantics guarantee. -/
def StoreWf (s : Store) : Prop :=
  (entityTexts s).Nodup ∧ (chunkIds s).Nodup ∧ (edgeKeys s).Nodup

theorem edgeKeys_nodup_relStep (st : Store) (r : Relation)
    (h : (edgeKeys st).Nodup) : (edgeKeys (relStep st r)).Nodup := by
  by_cases hc : relCond st r
  · rw [relStep_pos hc]
    exact nodup_mergeEdge_keys _ _ _ _ st.edges h
  · rw [relStep_neg hc]
    exact h

theorem edgeKeys_nodup_mentionStep (i : Nat) (doc : PyDocument) (st : Store)
    (e : Entity) (h : (edgeKeys st).Nodup) :
    (edgeKeys (mentionStep i doc st e)).Nodup := by
  by_cases hc : mentionCond st i doc e
  · rw [mentionStep_pos hc]
    exact nodup_mergeEdge_keys _ _ _ _ st.edges h
  · rw [mentionStep_neg hc]
    exact h

theorem storeWf_store_entities (s : Store) (es : List Entity)
    (h : StoreWf s) : StoreWf (store_entities s es).1 := by
  refine ⟨store_entities_nodup s es h.1, ?_, ?_⟩
  · unfold chunkIds
    rw [store_entities_chunks]
    exact h.2.1
  · unfold edgeKeys
    rw [store_entities_edges]
    exact h.2.2

theorem storeWf_store_relations (s : Store) (rs : List Relation)
    (h : StoreWf s) : StoreWf (store_relations s rs).1 := by
  refine ⟨?_, ?_, ?_⟩
  · unfold entityTexts
    rw [store_relations_entities]
    exact h.1
  · unfold chunkIds
    rw [store_relations_chunks]
    exact h.2.1
  · rw [store_relations_fst]
    have hgen : ∀ st : Store, (edgeKeys st).Nodup →
        (edgeKeys (rs.foldl relStep st)).Nodup := by
      induction rs with
      | nil => exact fun st hst => hst
      | cons r rest ih =>
        intro st hst
        exact ih _ (edgeKeys_nodup_relStep st r hst)
    exact hgen s h.2.2

theorem storeWf_store_chunks (s : Store) (docs : List PyDocument)
    (embs : List (List Float)) (h : StoreWf s) :
    StoreWf (store_chunks_with_embeddings s docs embs).1 := by
  refine ⟨?_, ?_, ?_⟩
  · unfold entityTexts
    rw [store_chunks_entities]
    exact h.1
  · exact chunk_fold_nodup (docs.zip embs) s 0 h.2.1
  · unfold edgeKeys
    rw [store_chunks_edges]
    exact h.2.2

theorem storeWf_link (s : Store) (docs : List PyDocument)
    (ents : List Entity) (h : StoreWf s) :
    StoreWf (link_chunks_to_entities s docs ents) := by
  refine ⟨?_, ?_, ?_⟩
  · unfold entityTexts
    rw [link_entities]
    exact h.1
  · unfold chunkIds
    rw [link_chunks]
    exact h.2.1
  · unfold link_chunks_to_entities
    generalize docs.enum = ps
    have hinner : ∀ (i : Nat) (doc : PyDocument) (st : Store),
        (edgeKeys st).Nodup →
          (edgeKeys (ents.foldl (mentionStep i doc) st)).Nodup := by
      intro i doc
      induction ents with
      | nil => exact fun st hst => hst
      | cons e rest ih =>
        intro st hst
        exact ih _ (edgeKeys_nodup_mentionStep i doc st e hst)
    have hgen : ∀ st : Store, (edgeKeys st).Nodup →
        (edgeKeys (ps.foldl
          (fun st p => ents.foldl (mentionStep p.1 p.2) st) st)).Nodup := by
      induction ps with
      | nil => exact fun st hst => hst
      | cons p rest ih =>
        intro st hst
        exact ih _ (hinner p.1 p.2 st hst)
    exact hgen s h.2.2

theorem storeWf_applyOp (s : Store) (op : StoreOp) (h : StoreWf s) :
    StoreWf (applyOp s op) := by
  cases op with
  | entities es => exact storeWf_store_entities s es h
  | relations rs => exact storeWf_store_relations s rs h
  | chunks docs embs => exact storeWf_store_chunks s docs embs h
  | link docs ents => exact storeWf_link s docs ents h
  | clear => exact ⟨List.nodup_nil, List.nodup_nil, List.nodup_nil⟩

theorem storeWf_runOps (ops : List StoreOp) : StoreWf (runOps ops) := by
  unfold runOps
  have hgen : ∀ s : Store, StoreWf s → StoreWf (ops.foldl applyOp s) := by
    induction ops with
    | nil => exact fun s h => h
    | cons op rest ih =>
      intro s h
      exact ih _ (storeWf_applyOp s op h)
  exact hgen emptyStore ⟨List.nodup_nil, List.nodup_nil, List.nodup_nil⟩

theorem entityCount_eq_length {s : Store} (h : (entityTexts s).Nodup) :
    entityCount s = s.entities.length := by
  have h2 : (s.entities.map (fun e => e.text)).Nodup := h
  unfold entityCount
  rw [List.toFinset_card_of_nodup h2]
  exact List.length_map _ _

theorem chunkCount_eq_length {s : Store} (h : (chunkIds s).Nodup) :
    chunkCount s = s.chunks.length := by
  have h2 : (s.chunks.map (fun c => c.chunk_id)).Nodup := h
  unfold chunkCount
  rw [List.toFinset_card_of_nodup h2]
  exact List.length_map _ _

theorem relCount_eq_length {s : Store} (h : (edgeKeys s).Nodup) :
    relCount s = s.edges.length := by
  have h2 : (s.edges.map edgeKey).Nodup := h
  unfold relCount
  rw [List.toFinset_card_of_nodup h2]
  exact List.length_map _ _

/-- C5 (amended): on every reachable store, `get_statistics` returns the
exact counts of Entity nodes, Chunk nodes and relationships whenever at
least one Chunk node and at least one relationship exist (the entity
count may be zero); whenever the chunk count or the relationship count
is zero, the chained `MATCH` query yields no row and the method returns
the all-zero counts instead. -/
theorem statistics_exact_when_rows (ops : List StoreOp) :
    (0 < (runOps ops).chunks.length → 0 < (runOps ops).edges.length →
      get_statistics (runOps ops) =
        ((runOps ops).entities.length, (runOps ops).chunks.length,
          (runOps ops).edges.length)) ∧
      ((runOps ops).chunks.length = 0 ∨ (runOps ops).edges.length = 0 →
        get_statistics (runOps ops) = (0, 0, 0)) := by
  obtain ⟨h1, h2, h3⟩ := storeWf_runOps ops
  have e1 := entityCount_eq_length h1
  have e2 := chunkCount_eq_length h2
  have e3 := relCount_eq_length h3
  constructor
  · intro hc hr
    unfold get_statistics
    rw [e1, e2, e3, if_pos ⟨hc, hr⟩]
  · intro h0
    have hn : ¬ (0 < chunkCount (runOps ops) ∧ 0 < relCount (runOps ops)) := by
      rw [e2, e3]
      rcases h0 with h0 | h0 <;> omega
    unfold get_statistics
    rw [if_neg hn]

/-- C5 (witness): a reachable store with two entities, one chunk and one
relationship, on which the statistics are exact. -/
theorem statistics_exact_when_rows_witness :
    0 < (runOps [.entities [⟨"A", "ORG", 0, 1⟩, ⟨"B", "ORG", 2, 3⟩],
          .relations [⟨"A", "B", "knows", "c"⟩],
          .chunks [⟨"t", some "s", some 0, some 1⟩] [([] : List Float)]]).chunks.length ∧
      get_statistics (runOps [.entities [⟨"A", "ORG", 0, 1⟩, ⟨"B", "ORG", 2, 3⟩],
          .relations [⟨"A", "B", "knows", "c"⟩],
          .chunks [⟨"t", some "s", some 0, some 1⟩] [([] : List Float)]]) =
        ((runOps [.entities [⟨"A", "ORG", 0, 1⟩, ⟨"B", "ORG", 2, 3⟩],
          .relations [⟨"A", "B", "knows", "c"⟩],
          .chunks [⟨"t", some "s", some 0, some 1⟩] [([] : List Float)]]).entities.length,
         (runOps [.entities [⟨"A", "ORG", 0, 1⟩, ⟨"B", "ORG", 2, 3⟩],
          .relations [⟨"A", "B", "knows", "c"⟩],
          .chunks [⟨"t", some "s", some 0, some 1⟩] [([] : List Float)]]).chunks.length,
         (runOps [.entities [⟨"A", "ORG", 0, 1⟩, ⟨"B", "ORG", 2, 3⟩],
          .relations [⟨"A", "B", "knows", "c"⟩],
          .chunks [⟨"t", some "s", some 0, some 1⟩] [([] : List Float)]]).edges.length) :=
  ⟨by decide,
   (statistics_exact_when_rows
     [.entities [⟨"A", "ORG", 0, 1⟩, ⟨"B", "ORG", 2, 3⟩],
      .relations [⟨"A", "B", "knows", "c"⟩],
      .chunks [⟨"t", some "s", some 0, some 1⟩] [([] : List Float)]]).1
     (by decide) (by decide)⟩

/-- C5 (counterexample): the reachable store holding exactly one Entity
node and nothing else; `get_statistics` reports all zeros although the
exact counts are one entity, zero chunks, zero relationships. -/
theorem statistics_counterexample :
    get_statistics (runOps [.entities [⟨"Apple", "ORG", 0, 5⟩]]) = (0, 0, 0) ∧
      (runOps [.entities [⟨"Apple", "ORG", 0, 5⟩]]).entities.length = 1 ∧
      ((0 : Nat), (0 : Nat), (0 : Nat)) ≠ ((1 : Nat), (0 : Nat), (0 : Nat)) := by
  refine ⟨by decide, by decide, by decide⟩

/-! ## C6 and C10: store_chunks_with_embeddings semantics -/

theorem mem_upsertChunk_elem (row : ChunkRow) (l : List ChunkRow)
    (c : ChunkRow) (hc : c ∈ upsertChunk row l) : c = row ∨ c ∈ l := by
  induction l with
  | nil =>
    simp only [upsertChunk, List.mem_singleton] at hc
    exact Or.inl hc
  | cons c0 rest ih =>
    by_cases h : c0.chunk_id = row.chunk_id
    · rw [upsertChunk, if_pos h] at hc
      rcases List.mem_cons.mp hc with h1 | h1
      · exact Or.inl h1
      · exact Or.inr (List.mem_cons_of_mem _ h1)
    · rw [upsertChunk, if_neg h] at hc
      rcases List.mem_cons.mp hc with h1 | h1
      · exact Or.inr (h1 ▸ List.mem_cons_self _ _)
      · rcases ih h1 with h2 | h2
        · exact Or.inl h2
        · exact Or.inr (List.mem_cons_of_mem _ h2)

theorem chunk_fold_mem_elem (l : List (PyDocument × List Float)) (s : Store)
    (n : Nat) (c : ChunkRow) (hc : c ∈ ((l.foldl chunkStep (s, n)).1).chunks) :
    c ∈ s.chunks ∨ ∃ de ∈ l, c.text = de.1.page_content ∧ c.embedding = de.2 := by
  induction l generalizing s n with
  | nil => exact Or.inl hc
  | cons de rest ih =>
    rw [List.foldl_cons] at hc
    rcases ih _ _ hc with h1 | h1
    · rcases mem_upsertChunk_elem (chunkRowOf de n) s.chunks c h1 with h2 | h2
      · exact Or.inr ⟨de, List.mem_cons_self _ _, by rw [h2]; exact ⟨rfl, rfl⟩⟩
      · exact Or.inl h2
    · obtain ⟨de', hde', hprop⟩ := h1
      exact Or.inr ⟨de', List.mem_cons_of_mem _ hde', hprop⟩

/-- C6 (amended): `store_chunks_with_embeddings` performs no dimension
validation and cannot fail: every zipped pair is counted, and every
chunk row it writes stores the supplied embedding exactly as given,
whatever its length. -/
theorem store_chunks_no_dimension_check (s : Store) (docs : List PyDocument)
    (embs : List (List Float)) :
    (store_chunks_with_embeddings s docs embs).2 =
        min docs.length embs.length ∧
      ∀ c ∈ (store_chunks_with_embeddings s docs embs).1.chunks,
        c ∈ s.chunks ∨ ∃ de ∈ docs.zip embs,
          c.text = de.1.page_content ∧ c.embedding = de.2 := by
  constructor
  · rw [store_chunks_snd]
    exact List.length_zip docs embs
  · intro c hc
    exact chunk_fold_mem_elem (docs.zip embs) s 0 c hc

/-- C6 (amended, witness): the single chunk stored for a two-element
embedding is present and carries that embedding. -/
theorem store_chunks_no_dimension_check_witness :
    chunkRowOf (⟨"t", some "s", some 0, some 1⟩, ([0, 0] : List Float)) 0 ∈
        (store_chunks_with_embeddings emptyStore
          [⟨"t", some "s", some 0, some 1⟩] [([0, 0] : List Float)]).1.chunks ∧
      (chunkRowOf (⟨"t", some "s", some 0, some 1⟩, ([0, 0] : List Float)) 0 ∈
          emptyStore.chunks ∨
        ∃ de ∈ [(⟨"t", some "s", some 0, some 1⟩ : PyDocument)].zip
            [([0, 0] : List Float)],
          (chunkRowOf (⟨"t", some "s", some 0, some 1⟩,
            ([0, 0] : List Float)) 0).text = de.1.page_content ∧
          (chunkRowOf (⟨"t", some "s", some 0, some 1⟩,
            ([0, 0] : List Float)) 0).embedding = de.2) :=
  ⟨List.mem_singleton_self _,
   (store_chunks_no_dimension_check emptyStore
       [⟨"t", some "s", some 0, some 1⟩] [([0, 0] : List Float)]).2 _
     (List.mem_singleton_self _)⟩

/-- C6 (counterexample): one document with an embedding of length 2
against the configured dimension 384 raises nothing: the call counts the
pair and stores the chunk with the mismatched two-element vector. -/
theorem chunk_dim_mismatch_stored :
    (store_chunks_with_embeddings emptyStore
        [⟨"t", some "s", some 0, some 1⟩] [([0, 0] : List Float)]).2 = 1 ∧
      ((store_chunks_with_embeddings emptyStore
          [⟨"t", some "s", some 0, some 1⟩]
          [([0, 0] : List Float)]).1.chunks.map
        (fun c => c.embedding.length)) = [2] ∧
      (2 : Nat) ≠ 384 := by
  refine ⟨rfl, rfl, by decide⟩

theorem zip_eq_zip_take {α β : Type _} (l1 : List α) (l2 : List β) :
    l1.zip l2 = (l1.take (min l1.length l2.length)).zip
      (l2.take (min l1.length l2.length)) := by
  induction l1 generalizing l2 with
  | nil => simp
  | cons a t1 ih =>
    cases l2 with
    | nil => simp
    | cons b t2 =>
      simp only [List.length_cons, Nat.succ_min_succ, List.take_succ_cons,
        List.zip_cons_cons]
      rw [ih t2]

theorem upsertChunk_length_fresh (row : ChunkRow) (l : List ChunkRow)
    (h : row.chunk_id ∉ l.map (fun c => c.chunk_id)) :
    (upsertChunk row l).length = l.length + 1 := by
  induction l with
  | nil => rfl
  | cons c0 rest ih =>
    rw [List.map_cons, List.mem_cons] at h
    have hne : ¬ c0.chunk_id = row.chunk_id :=
      fun he => h (Or.inl he.symm)
    rw [upsertChunk, if_neg hne, List.length_cons, List.length_cons,
      ih (fun hm => h (Or.inr hm))]

theorem chunk_fold_length_fresh (l : List (PyDocument × List Float))
    (s : Store) (n : Nat) (hnodup : (pairIdsFrom n l).Nodup)
    (hfresh : ∀ cid ∈ pairIdsFrom n l, cid ∉ chunkIds s) :
    ((l.foldl chunkStep (s, n)).1).chunks.length = s.chunks.length + l.length := by
  induction l generalizing s n with
  | nil => rfl
  | cons de rest ih =>
    rw [pairIdsFrom, List.nodup_cons] at hnodup
    have hfr0 : chunkIdOf de.1 n ∉ chunkIds s :=
      hfresh _ (by rw [pairIdsFrom]; exact List.mem_cons_self _ _)
    rw [List.foldl_cons]
    have hlen0 : (upsertChunk (chunkRowOf de n) s.chunks).length =
        s.chunks.length + 1 :=
      upsertChunk_length_fresh (chunkRowOf de n) s.chunks hfr0
    have hfresh2 : ∀ cid ∈ pairIdsFrom (n + 1) rest,
        cid ∉ chunkIds { s with chunks := upsertChunk (chunkRowOf de n) s.chunks } := by
      intro cid hcid hmem
      rcases (mem_upsertChunk (chunkRowOf de n) s.chunks cid).mp hmem with h1 | h1
      · have h1c : cid = chunkIdOf de.1 n := h1
        exact hnodup.1 (h1c ▸ hcid)
      · exact hfresh cid (by rw [pairIdsFrom]; exact List.mem_cons_of_mem _ hcid) h1
    show (List.foldl chunkStep
      ({ s with chunks := upsertChunk (chunkRowOf de n) s.chunks }, n + 1)
      rest).1.chunks.length = s.chunks.length + (de :: rest).length
    rw [ih _ _ hnodup.2 hfresh2]
    show (upsertChunk (chunkRowOf de n) s.chunks).length + rest.length =
      s.chunks.length + (rest.length + 1)
    rw [hlen0]
    omega

/-- C10: when the documents list and the embeddings list have different
lengths, `store_chunks_with_embeddings` raises no error: `zip` bounds
the loop, the returned count is `min` of the two lengths, the call is
indistinguishable from one given only the first `min` entries of each
list (the tail of the longer list is silently ignored), and -- when the
generated chunk ids are fresh and pairwise distinct -- exactly that many
chunk nodes are added. -/
theorem store_chunks_zip_semantics (s : Store) (docs : List PyDocument)
    (embs : List (List Float))
    (hnodup : (pairIdsFrom 0 (docs.zip embs)).Nodup)
    (hfresh : ∀ cid ∈ pairIdsFrom 0 (docs.zip embs), cid ∉ chunkIds s) :
    (store_chunks_with_embeddings s docs embs).2 =
        min docs.length embs.length ∧
      store_chunks_with_embeddings s docs embs =
        store_chunks_with_embeddings s
          (docs.take (min docs.length embs.length))
          (embs.take (min docs.length embs.length)) ∧
      (store_chunks_with_embeddings s docs embs).1.chunks.length =
        s.chunks.length + min docs.length embs.length := by
  refine ⟨?_, ?_, ?_⟩
  · rw [store_chunks_snd]
    exact List.length_zip docs embs
  · unfold store_chunks_with_embeddings
    rw [← zip_eq_zip_take]
  · have h := chunk_fold_length_fresh (docs.zip embs) s 0 hnodup hfresh
    rw [List.length_zip] at h
    exact h

/-- C10 (witness): three documents zipped with two embeddings store
exactly two chunks and return the count 2. -/
theorem store_chunks_zip_semantics_witness :
    (pairIdsFrom 0 (([⟨"a", some "s", some 0, some 1⟩,
        ⟨"b", some "s", some 1, some 1⟩,
        ⟨"c", some "s", some 2, some 1⟩] : List PyDocument).zip
        [([] : List Float), ([] : List Float)])).Nodup ∧
      (store_chunks_with_embeddings emptyStore
        [⟨"a", some "s", some 0, some 1⟩, ⟨"b", some "s", some 1, some 1⟩,
          ⟨"c", some "s", some 2, some 1⟩]
        [([] : List Float), ([] : List Float)]).2 =
        min (3 : Nat) 2 ∧
      (store_chunks_with_embeddings emptyStore
        [⟨"a", some "s", some 0, some 1⟩, ⟨"b", some "s", some 1, some 1⟩,
          ⟨"c", some "s", some 2, some 1⟩]
        [([] : List Float), ([] : List Float)]).1.chunks.length =
        emptyStore.chunks.length + min (3 : Nat) 2 := by
  have h := store_chunks_zip_semantics emptyStore
    [⟨"a", some "s", some 0, some 1⟩, ⟨"b", some "s", some 1, some 1⟩,
      ⟨"c", some "s", some 2, some 1⟩]
    [([] : List Float), ([] : List Float)] (by decide)
    (by decide)
  exact ⟨by decide, h.1, h.2.2⟩

/-! ## C9: `get_entity_subgraph` (neo4j_store.py lines 219-253)

The Cypher pattern `(e:Entity {text: $t})-[*1..depth]-(connected)`
matches every path that starts at the matched entity node, traverses
1 to `depth` relationships, each in either direction, and repeats no
relationship.  The Python loop then runs
`nodes.add((node.get("text"), dict(node)))` for every node of every
matched path: a tuple containing a dict is unhashable, so the first
matched path raises `TypeError: unhashable type: dict` and the method
never returns.  Only when the query matches no path -- the entity does
not exist, it has no incident relationship, or `depth < 1` -- does the
loop body never run and the method return, with both collections
empty. -/

/-- Traversing the relationship `e` between nodes `a` and `b` in either
direction. -/
def EdgeConnects (e : Edge) (a b : NodeRef) : Prop :=
  (e.src = a ∧ e.tgt = b) ∨ (e.src = b ∧ e.tgt = a)

/-- `IsWalk E a b w`: the relationship sequence `w`, each taken from `E`
and traversed in either direction, leads from node `a` to node `b`. -/
inductive IsWalk (E : List Edge) : NodeRef → NodeRef → List Edge → Prop where
  | nil (a : NodeRef) : IsWalk E a a []
  | cons {a b c : NodeRef} {e : Edge} {w : List Edge} (he : e ∈ E)
      (hab : EdgeConnects e a b) (hw : IsWalk E b c w) :
      IsWalk E a c (e :: w)

theorem walk_head_incident {E : List Edge} {a c : NodeRef} {w : List Edge}
    (h : IsWalk E a c w) (hne : w ≠ []) :
    ∃ e ∈ E, e.src = a ∨ e.tgt = a := by
  cases h with
  | nil => exact absurd rfl hne
  | cons he hab hw =>
    rcases hab with ⟨h1, h2⟩ | ⟨h1, h2⟩
    · exact ⟨_, he, Or.inl h1⟩
    · exact ⟨_, he, Or.inr h2⟩

/-- The Cypher query of `get_entity_subgraph` matches at least one path:
some relationship-unique walk of length `1..depth` leaves the matched
entity node. -/
def subgraphMatches (s : Store) (t : String) (depth : Nat) : Prop :=
  hasEntity s t = true ∧ ∃ w c,
    IsWalk s.edges (.entity t) c w ∧ 1 ≤ w.length ∧ w.length ≤ depth ∧
    w.Nodup

/-- Executable form of the match condition: the entity exists, some
relationship touches it, and the length range `1..depth` is
non-empty. -/
def subgraphMatchesB (s : Store) (t : String) (depth : Nat) : Bool :=
  hasEntity s t &&
    s.edges.any (fun e =>
      decide (e.src = NodeRef.entity t) || decide (e.tgt = NodeRef.entity t)) &&
    decide (1 ≤ depth)

/-- `Neo4jGraphStore.get_entity_subgraph`: when the traversal matches at
least one path, the first `nodes.add((node.get("text"), dict(node)))`
(line 242) hashes a tuple containing a dict and the method raises
`TypeError`; when no path matches, the record loop never runs and the
empty node and relationship collections are returned. -/
def get_entity_subgraph (s : Store) (t : String) (depth : Nat) :
    Except String (List NodeRef × List Edge) :=
  if subgraphMatchesB s t depth then
    .error "TypeError: unhashable type: dict"
  else .ok ([], [])

theorem subgraphMatchesB_iff (s : Store) (t : String) (depth : Nat) :
    subgraphMatchesB s t depth = true ↔ subgraphMatches s t depth := by
  unfold subgraphMatchesB subgraphMatches
  rw [Bool.and_eq_true, Bool.and_eq_true]
  constructor
  · rintro ⟨⟨hE, hinc⟩, hd⟩
    rw [List.any_eq_true] at hinc
    obtain ⟨e0, he0, hor⟩ := hinc
    rw [Bool.or_eq_true, decide_eq_true_eq, decide_eq_true_eq] at hor
    rw [decide_eq_true_eq] at hd
    rcases hor with hs | ht
    · exact ⟨hE, [e0], e0.tgt,
        .cons he0 (Or.inl ⟨hs, rfl⟩) (.nil _), by simp, by simpa, by simp⟩
    · exact ⟨hE, [e0], e0.src,
        .cons he0 (Or.inr ⟨rfl, ht⟩) (.nil _), by simp, by simpa, by simp⟩
  · rintro ⟨hE, w, c, hw, h1, hd2, hnd⟩
    have hne : w ≠ [] := by
      intro h0
      rw [h0] at h1
      exact absurd h1 (by simp)
    obtain ⟨e0, he0, hor⟩ := walk_head_incident hw hne
    refine ⟨⟨hE, ?_⟩, ?_⟩
    · rw [List.any_eq_true]
      refine ⟨e0, he0, ?_⟩
      rw [Bool.or_eq_true, decide_eq_true_eq, decide_eq_true_eq]
      exact hor
    · rw [decide_eq_true_eq]
      omega

/-- C9: `get_entity_subgraph` cannot return the subgraph its docstring
and the claim describe.  Whenever the traversal matches at least one
path -- the entity exists, has an incident relationship, and depth is at
least 1 -- the set insertion `nodes.add((node.get("text"), dict(node)))`
raises `TypeError: unhashable type: dict`, so no node or relationship
collection is ever produced; only when no path matches does the method
return, and then both collections are empty. -/
theorem subgraph_raises_typeerror (s : Store) (t : String) (depth : Nat) :
    (subgraphMatches s t depth →
        get_entity_subgraph s t depth =
          .error "TypeError: unhashable type: dict") ∧
      (¬ subgraphMatches s t depth →
        get_entity_subgraph s t depth = .ok ([], [])) := by
  constructor
  · intro hm
    unfold get_entity_subgraph
    rw [if_pos ((subgraphMatchesB_iff s t depth).mpr hm)]
  · intro hm
    unfold get_entity_subgraph
    rw [if_neg (fun hb => hm ((subgraphMatchesB_iff s t depth).mp hb))]

/-- C9 (witness): on the reachable store with entities `A`, `B` and one
`KNOWS` relationship, `get_entity_subgraph "A" 2` matches a path and
raises the `TypeError`; on the empty store nothing matches and the empty
collections come back without error. -/
theorem subgraph_raises_typeerror_witness :
    subgraphMatches (runOps [.entities [⟨"A", "ORG", 0, 1⟩, ⟨"B", "ORG", 2, 3⟩],
        .relations [⟨"A", "B", "knows", "c"⟩]]) "A" 2 ∧
      get_entity_subgraph (runOps [.entities [⟨"A", "ORG", 0, 1⟩, ⟨"B", "ORG", 2, 3⟩],
          .relations [⟨"A", "B", "knows", "c"⟩]]) "A" 2 =
        .error "TypeError: unhashable type: dict" ∧
      ¬ subgraphMatches emptyStore "x" 2 ∧
      get_entity_subgraph emptyStore "x" 2 = .ok ([], []) := by
  have hm : subgraphMatches (runOps [.entities [⟨"A", "ORG", 0, 1⟩, ⟨"B", "ORG", 2, 3⟩],
      .relations [⟨"A", "B", "knows", "c"⟩]]) "A" 2 :=
    ⟨by decide, [⟨.entity "A", .entity "B", "KNOWS", some "c"⟩], .entity "B",
     .cons (by decide) (Or.inl ⟨rfl, rfl⟩) (.nil _), by decide, by decide,
     by decide⟩
  have hnm : ¬ subgraphMatches emptyStore "x" 2 := by
    rintro ⟨hE, -⟩
    exact absurd hE (by decide)
  exact ⟨hm, (subgraph_raises_typeerror _ _ _).1 hm, hnm,
    (subgraph_raises_typeerror _ _ _).2 hnm⟩

end GraphRag
